import Mathlib

/-!
Shallow embedding of the `gim` video-reconstruction batch runner
(`video_cut.py` and `camera_stats.py`) and proofs about its scheduler,
timeout/recovery path, and magnitude/recall aggregation.

Numeric conventions: Python floats are modelled as exact rationals (ℚ).
`np.std` is irrational in general, so a summary vector stores the
variance (the square of the standard deviation) in the slots where the
code stores the standard deviation; equality and aggregation facts are
unaffected by this squaring, and the designated-field analysis in
`camera_stats.py` is stated over arbitrary stored vectors, so nothing
below depends on which of the two is stored.
-/

namespace Gim

/-! ### Magnitude bucketing (`camera_stats.analyze_camera_stats_magnitude`)

The code iterates `for mag in [10, 100, 1000, np.inf]` and increments the
first bucket with `abs(camera[duration][param_index]) < mag`, then breaks;
a video whose per-video mapping lacks the duration key goes to the
distinguished `failed` bucket.  Buckets are numbered 0..3 for the four
magnitude thresholds and 4 for `failed`. -/

/-- Thresholds of the four magnitude buckets: `[10, 100, 1000, np.inf]`,
with `none` standing for `np.inf`. -/
def threshold : ℕ → Option ℚ
  | 0 => some 10
  | 1 => some 100
  | 2 => some 1000
  | _ => none

/-- `v` is strictly below the threshold of bucket `i` (`v < np.inf` always
holds for a finite value). -/
def belowThreshold (i : ℕ) (v : ℚ) : Prop :=
  match threshold i with
  | some t => v < t
  | none => True

instance (i : ℕ) (v : ℚ) : Decidable (belowThreshold i v) := by
  unfold belowThreshold
  cases threshold i with
  | some t => exact inferInstanceAs (Decidable (v < t))
  | none => exact inferInstanceAs (Decidable True)

/-- The loop `for mag in magnitudes: if param_value < mag: ...; break`,
unrolled over the concrete threshold list `[10, 100, 1000, np.inf]`:
index of the first bucket whose threshold strictly exceeds `v`. -/
def bucketIdx (v : ℚ) : ℕ :=
  if v < 10 then 0 else if v < 100 then 1 else if v < 1000 then 2 else 3

/-- Index of the distinguished `failed` bucket. -/
def failedIdx : ℕ := 4

/-- `abs(camera[duration][param_index])` with `param_index = 4` (the code
would raise `IndexError` on a vector shorter than 5, so stored vectors
are implicitly of length at least 5; `getD` gives the missing case a
harmless default). -/
def paramValue (ps : List ℚ) : ℚ := |ps.getD 4 0|

/-- The aggregate `all_camera_params`: an association list from video name
to its per-duration mapping from duration key to stored summary vector
(Python iterates a dict, so video names are unique; theorems that need
this carry a `Nodup` hypothesis). -/
abbrev CameraStats := List (String × List (String × List ℚ))

/-- Which bucket one video's mapping contributes to for one duration:
`failed` when the duration key is absent, else the first magnitude bucket
strictly above the designated value. -/
def assignBucket (camera : List (String × List ℚ)) (dur : String) : ℕ :=
  match camera.lookup dur with
  | none => failedIdx
  | some ps => bucketIdx (paramValue ps)

/-- `magnitude_stats[duration][bucket]` after the counting loop. -/
def bucketCount (stats : CameraStats) (dur : String) (b : ℕ) : ℕ :=
  (stats.map (fun p => assignBucket p.2 dur)).count b

/-- `total_counts[duration]`: incremented once per video per duration,
whether or not the video has a usable entry for that duration. -/
def totalCount (stats : CameraStats) (_dur : String) : ℕ := stats.length

/-- `recall_stats[duration][bucket] = count / total`. -/
def recallOf (stats : CameraStats) (dur : String) (b : ℕ) : ℚ :=
  (bucketCount stats dur b : ℚ) / (totalCount stats dur : ℚ)

/-- `detailed_stats[duration][bucket]`: the `(video_name, value)` pairs
recorded for one bucket, in iteration order; a `failed` entry carries no
value (the code stores the string `'failed'` there). -/
def detailed (stats : CameraStats) (dur : String) (b : ℕ) :
    List (String × Option ℚ) :=
  (stats.filter (fun p => assignBucket p.2 dur = b)).map
    (fun p => (p.1, (p.2.lookup dur).map paramValue))

/-! ### Per-camera summaries (`process_single_video`)

`np.concatenate((np.mean(arr, axis=0), np.std(arr, axis=0)))` over the
array whose rows are the per-camera parameter vectors.  Columns are
indexed over the width of the first row (NumPy requires a rectangular
array).  As explained at the top of the file, the standard-deviation half
is stored squared (as the variance) to stay inside ℚ. -/

/-- Column-wise mean of a list of rows. -/
def meanVec (cams : List (List ℚ)) : List ℚ :=
  (List.range (cams.headD []).length).map
    (fun j => (cams.map (fun c => c.getD j 0)).sum / (cams.length : ℚ))

/-- Column-wise variance (mean squared deviation from the column mean),
the square of `np.std(arr, axis=0)`. -/
def varVec (cams : List (List ℚ)) : List ℚ :=
  (List.range (cams.headD []).length).map
    (fun j =>
      (cams.map
        (fun c => (c.getD j 0 - (cams.map (fun r => r.getD j 0)).sum / (cams.length : ℚ)) ^ 2)).sum
        / (cams.length : ℚ))

/-- The stored summary vector for one set of camera parameter rows:
mean components followed by spread components. -/
def summaryOf (cams : List (List ℚ)) : List ℚ := meanVec cams ++ varVec cams

/-! ### One duration of `process_single_video`

Per duration the code runs frame extraction and reconstruction under
`time_limit`, then checks the three output files and parses the model.
The environment's behaviour for one duration is a `RunEvent`:

* `ok cams` — finished within the deadline, all three files present,
  parse yields the rows `cams`;
* `missing f` — finished within the deadline but output file `f` absent,
  so `RuntimeError(f"{f} reconstruction failed")` is raised;
* `timeout cps parse elapsed` — `TimeoutException`; the scratch `models`
  directory holds checkpoint subdirectories `cps` (name, registered-frame
  count), `parse` gives the camera rows of each checkpoint's promoted
  files, and `elapsed` is the integer elapsed time;
* `err msg` — any other exception with message `msg`. -/

inductive RunEvent where
  | ok (cams : List (List ℚ))
  | missing (file : String)
  | timeout (cps : List (String × ℕ)) (parse : String → List (List ℚ)) (elapsed : ℕ)
  | err (msg : String)

/-- One iteration of the recovery scan: keep a checkpoint only when its
registered-image count is strictly greater than the best so far. -/
def selStep (st : Option String × ℕ) (p : String × ℕ) : Option String × ℕ :=
  if p.2 > st.2 then (some p.1, p.2) else st

/-- The recovery scan over `os.listdir(model_path)`, starting from
`largest_path = None, largest_num_images = 0`. -/
def selectLargest (cps : List (String × ℕ)) : Option String × ℕ :=
  cps.foldl selStep (none, 0)

/-- What one iteration of the duration loop produces:
the recorded `camera_params[str(duration)]` entry (if any), the rows
appended to `camera_params_out_duration`, and the line appended to the
error log (if any).  The recovery branch re-parses the promoted files
exactly as the success branch does and records nothing else; its inner
`except` produces the `Timeout after N seconds` log line. -/
def processDuration (video : String) (dur : ℕ) (ev : RunEvent) :
    Option (List ℚ) × List (List ℚ) × Option String :=
  match ev with
  | .ok cams => (some (summaryOf cams), cams, none)
  | .missing f =>
      (none, [], some (video ++ " " ++ toString dur ++ "s: " ++ f ++ " reconstruction failed"))
  | .timeout cps parse elapsed =>
      match (selectLargest cps).1 with
      | some p => (some (summaryOf (parse p)), parse p, none)
      | none =>
          (none, [],
            some (video ++ " " ++ toString dur ++ "s: Timeout after "
              ++ toString elapsed ++ " seconds"))
  | .err msg => (none, [], some (video ++ " " ++ toString dur ++ "s: " ++ msg))

/-- Mutable state of `process_single_video`'s duration loop:
`camera_params` (duration-keyed entries, in insertion order),
`camera_params_out_duration`, and the error-log lines written so far. -/
structure VideoAcc where
  entries : List (String × List ℚ)
  outAll : List (List ℚ)
  logs : List String
deriving DecidableEq

/-- Componentwise concatenation of two loop states. -/
def VideoAcc.happ (a b : VideoAcc) : VideoAcc :=
  ⟨a.entries ++ b.entries, a.outAll ++ b.outAll, a.logs ++ b.logs⟩

/-- One iteration of the duration loop folded into the state. -/
def stepVideo (video : String) (acc : VideoAcc) (j : ℕ × RunEvent) : VideoAcc :=
  let r := processDuration video j.1 j.2
  ⟨acc.entries ++ (match r.1 with | some s => [(toString j.1, s)] | none => []),
   acc.outAll ++ r.2.1,
   acc.logs ++ (match r.2.2 with | some l => [l] | none => [])⟩

/-- The whole duration loop of `process_single_video`, from an arbitrary
starting state. -/
def runVideoFrom (video : String) (acc : VideoAcc) (jobs : List (ℕ × RunEvent)) : VideoAcc :=
  jobs.foldl (stepVideo video) acc

/-- The loop state at entry to `process_single_video`'s duration loop. -/
def emptyAcc : VideoAcc := ⟨[], [], []⟩

/-- The whole duration loop from the empty state. -/
def runVideo (video : String) (jobs : List (ℕ × RunEvent)) : VideoAcc :=
  runVideoFrom video emptyAcc jobs

/-- End of `process_single_video`: when `camera_params_out_duration` is
empty the function returns without writing a result file (modelled as
`none`); otherwise the `total` entry is appended and the mapping is
saved.  The error-log lines are returned alongside. -/
def processSingleVideo (video : String) (jobs : List (ℕ × RunEvent)) :
    Option (List (String × List ℚ)) × List String :=
  let acc := runVideo video jobs
  if acc.outAll = [] then (none, acc.logs)
  else (some (acc.entries ++ [("total", summaryOf acc.outAll)]), acc.logs)

/-- `process_videos`'s result collection: a video contributes a row to
`all_camera_params` exactly when its `<video>_result.npz` file exists,
i.e. exactly when `processSingleVideo` saved a mapping. -/
def buildStats (videoJobs : List (String × List (ℕ × RunEvent))) : CameraStats :=
  videoJobs.filterMap (fun p => ((processSingleVideo p.1 p.2).1).map (fun m => (p.1, m)))

/-- A small concrete aggregate used to instantiate theorems: video `A`
has a usable summary at 30 s only, video `B` at 60 s only. -/
def wStats : CameraStats :=
  [("A", [("30", [0, 0, 0, 0, 5])]), ("B", [("60", [0, 0, 0, 0, 50])])]

/-- A sample run for one video: reconstruction succeeds at 30 s and fails
to decode at 60 s. -/
def sampleJobsA : List (ℕ × RunEvent) :=
  [(30, .ok [[1, 2, 3, 4, 5]]), (60, .err "decode failed")]

/-- A sample run for one video that fails at both durations. -/
def sampleJobsB : List (ℕ × RunEvent) :=
  [(30, .err "decode failed"), (60, .err "decode failed")]

/-- A sample two-video run. -/
def sampleVideoJobs : List (String × List (ℕ × RunEvent)) :=
  [("A", sampleJobsA), ("B", sampleJobsB)]

/-- Modelled from the spec: the alternative `total` semantics the spec
rejects — a plain average of the per-duration mean vectors — kept only to
compare against the union-of-rows semantics the code implements. -/
def avgOfDurationMeans (groups : List (List (List ℚ))) : List ℚ :=
  meanVec (groups.map meanVec)

/-! ### The per-process seed (`process_single_video`, lines 127–131, 150)

`process_seed = seed + hash(video_name) % 10000`: CPython's `hash` on a
string is salted per interpreter invocation (hash randomization), so the
embedding takes the interpreter's string-hash function as a parameter.
Lean's `%` on ℤ and Python's `%` agree for the positive modulus 10000. -/

/-- `process_seed = seed + hash(video_name) % 10000`, parameterized by the
interpreter's salted string hash. -/
def processSeed (pyHash : String → ℤ) (seed : ℤ) (video : String) : ℤ :=
  seed + pyHash video % 10000

/-- `video_seed = process_seed + duration` (line 150). -/
def videoSeed (pyHash : String → ℤ) (seed : ℤ) (video : String) (duration : ℤ) : ℤ :=
  processSeed pyHash seed video + duration

/-! ### `time_limit` (`video_cut.py`, lines 102–111)

A `threading.Timer` armed for `seconds` delivers `KeyboardInterrupt` to
the main thread at the deadline; the guarded block therefore ends in one
of three ways, and the context manager maps that ending to what the
caller observes.  `KeyboardInterrupt` carries its arrival time so that a
genuine user interrupt (arrival before the deadline) is distinguishable
in the model even though the code cannot distinguish it. -/

inductive BlockOutcome (α : Type) where
  | normal (v : α)
  | keyboardInterrupt (arrival : ℕ)
  | raised (e : String)
deriving DecidableEq

inductive GuardOutcome (α : Type) where
  | normal (v : α)
  | timedOut
  | raised (e : String)
deriving DecidableEq

/-- The `time_limit` context manager: result seen by the caller, paired
with whether `timer.cancel()` ran (it is in the `finally` block, so it
runs on every exit path). -/
def timeLimit (α : Type) (seconds : ℕ) (body : BlockOutcome α) : GuardOutcome α × Bool :=
  match seconds, body with
  | _, .normal v => (.normal v, true)
  | _, .keyboardInterrupt _ => (.timedOut, true)
  | _, .raised e => (.raised e, true)

/-! ### The scheduler (`process_videos`, lines 252–333)

Videos are dealt round-robin over the GPUs (`i % num_gpus`); each GPU
owns a waiting queue and a list of live processes, capped at
`processes_per_gpu = 4`.  The monitor loop removes a process as soon as
it is no longer alive, collects its result, and immediately starts the
head of that GPU's queue in the freed capacity.  One GPU's evolution is a
state machine; `started` records the dispatch history (order of
`p.start()` calls). -/

/-- `processes_per_gpu = 4`. -/
def processesPerGpu : ℕ := 4

/-- The round-robin deal, with the running index made explicit:
`assignFrom n i vs g` is the part of `gpu_video_groups[g]` contributed by
the videos `vs` when the enumeration counter starts at `i`. -/
def assignFrom (numGpus : ℕ) (i : ℕ) (videos : List String) (g : ℕ) : List String :=
  match videos with
  | [] => []
  | v :: rest => (if i % numGpus = g then [v] else []) ++ assignFrom numGpus (i + 1) rest g

/-- `gpu_video_groups[g]` for the full (sorted) video list. -/
def gpuGroup (numGpus : ℕ) (videos : List String) (g : ℕ) : List String :=
  assignFrom numGpus 0 videos g

/-- One GPU's scheduler state: its waiting queue (`gpu_queues[g]`), the
videos of its live processes (`gpu_processes[g]`), the videos whose
processes have been joined and collected, and the dispatch history. -/
structure SlotState where
  queue : List String
  inflight : List String
  done : List String
  started : List String
deriving DecidableEq

/-- The initial fill: start `min(processes_per_gpu, len(queue))` processes
by popping from the front of the queue. -/
def initSlot (group : List String) : SlotState :=
  ⟨group.drop processesPerGpu, group.take processesPerGpu, [],
    group.take processesPerGpu⟩

/-- One observable transition of the monitor loop on one GPU: some live
process (at any position — completion order is arbitrary) is found dead,
is joined and collected, and, if the queue is non-empty, its head is
popped and started in the freed capacity. -/
inductive SlotStep : SlotState → SlotState → Prop where
  | complete (q done started pre post : List String) (v : String) :
      SlotStep ⟨q, pre ++ v :: post, done, started⟩
        (match q with
         | [] => ⟨[], pre ++ post, done ++ [v], started⟩
         | h :: t => ⟨t, (pre ++ post) ++ [h], done ++ [v], started ++ [h]⟩)

/-- Reachability of one GPU's state from its initial state. -/
def Reaches : SlotState → SlotState → Prop :=
  Relation.ReflTransGen SlotStep

/-- The monitor-loop invariant of one GPU whose deal is `group`: at most
`processes_per_gpu` live processes; the dispatch history followed by the
waiting queue is exactly the deal in order (so videos are started in
queue order and never invented or duplicated); every dispatched video is
at any moment either live or collected, exactly once. -/
def SlotInv (group : List String) (s : SlotState) : Prop :=
  s.inflight.length ≤ processesPerGpu
  ∧ s.started ++ s.queue = group
  ∧ (s.done ++ s.inflight).Perm s.started

/-! ## Lemmas about the magnitude bucketing -/

theorem bucketIdx_le_three (v : ℚ) : bucketIdx v ≤ 3 := by
  unfold bucketIdx
  split_ifs <;> omega

theorem bucketIdx_least (v : ℚ) :
    belowThreshold (bucketIdx v) v ∧ ∀ j, j < bucketIdx v → ¬ belowThreshold j v := by
  unfold bucketIdx
  by_cases h1 : v < 10
  · simp only [if_pos h1]
    exact ⟨h1, fun j hj => absurd hj (Nat.not_lt_zero j)⟩
  · by_cases h2 : v < 100
    · simp only [if_neg h1, if_pos h2]
      refine ⟨h2, ?_⟩
      intro j hj
      interval_cases j
      · exact h1
    · by_cases h3 : v < 1000
      · simp only [if_neg h1, if_neg h2, if_pos h3]
        refine ⟨h3, ?_⟩
        intro j hj
        interval_cases j
        · exact h1
        · exact h2
      · simp only [if_neg h1, if_neg h2, if_neg h3]
        refine ⟨trivial, ?_⟩
        intro j hj
        interval_cases j
        · exact h1
        · exact h2
        · exact h3

theorem assignBucket_lt_five (camera : List (String × List ℚ)) (dur : String) :
    assignBucket camera dur < 5 := by
  unfold assignBucket
  cases hc : camera.lookup dur with
  | none => exact Nat.lt_succ_self 4
  | some ps => exact Nat.lt_of_le_of_lt (bucketIdx_le_three (paramValue ps)) (by omega)

theorem sum_count_of_forall_lt (l : List ℕ) (n : ℕ) (h : ∀ x ∈ l, x < n) :
    ∑ b in Finset.range n, l.count b = l.length := by
  induction l with
  | nil => simp
  | cons x xs ih =>
    have hx : x ∈ Finset.range n := Finset.mem_range.mpr (h x (List.mem_cons_self x xs))
    have hxs : ∀ y ∈ xs, y < n := fun y hy => h y (List.mem_cons_of_mem x hy)
    calc ∑ b in Finset.range n, (x :: xs).count b
        = ∑ b in Finset.range n, (xs.count b + if x = b then 1 else 0) := by
          refine Finset.sum_congr rfl fun b _ => ?_
          rw [List.count_cons]
          simp only [beq_iff_eq]
      _ = (∑ b in Finset.range n, xs.count b)
            + ∑ b in Finset.range n, (if x = b then 1 else 0) := Finset.sum_add_distrib
      _ = xs.length + 1 := by
          rw [ih hxs, Finset.sum_ite_eq (Finset.range n) x (fun _ => 1), if_pos hx]
      _ = (x :: xs).length := by simp

theorem sum_bucketCounts (stats : CameraStats) (dur : String) :
    ∑ b in Finset.range 5, bucketCount stats dur b = totalCount stats dur := by
  unfold bucketCount totalCount
  rw [sum_count_of_forall_lt]
  · simp
  · intro x hx
    rcases List.mem_map.mp hx with ⟨p, _, rfl⟩
    exact assignBucket_lt_five p.2 dur

theorem sum_recalls (stats : CameraStats) (dur : String) (h : 0 < totalCount stats dur) :
    ∑ b in Finset.range 5, recallOf stats dur b = 1 := by
  unfold recallOf
  rw [← Finset.sum_div, ← Nat.cast_sum, sum_bucketCounts]
  exact div_self (by exact_mod_cast Nat.pos_iff_ne_zero.mp h)

theorem mem_detailed (stats : CameraStats) (dur : String) (video : String)
    (camera : List (String × List ℚ)) (hmem : (video, camera) ∈ stats) :
    (video, (camera.lookup dur).map paramValue)
      ∈ detailed stats dur (assignBucket camera dur) := by
  unfold detailed
  refine List.mem_map.mpr ⟨(video, camera), ?_, rfl⟩
  exact List.mem_filter.mpr ⟨hmem, by simp⟩

theorem of_mem_detailed (stats : CameraStats) (dur : String) (b : ℕ)
    (video : String) (val : Option ℚ) (h : (video, val) ∈ detailed stats dur b) :
    ∃ camera, (video, camera) ∈ stats ∧ assignBucket camera dur = b
      ∧ val = (camera.lookup dur).map paramValue := by
  unfold detailed at h
  rcases List.mem_map.mp h with ⟨p, hp, he⟩
  rcases List.mem_filter.mp hp with ⟨hmem, hb⟩
  have hv : p.1 = video := congrArg Prod.fst he
  have hval : (p.2.lookup dur).map paramValue = val := congrArg Prod.snd he
  refine ⟨p.2, ?_, ?_, hval.symm⟩
  · rw [← hv]
    exact hmem
  · exact of_decide_eq_true hb

theorem assoc_eq_of_nodup_keys {β : Type} {l : List (String × β)}
    (hnd : (l.map Prod.fst).Nodup) {k : String} {x y : β}
    (hx : (k, x) ∈ l) (hy : (k, y) ∈ l) : x = y := by
  induction l with
  | nil => cases hx
  | cons p rest ih =>
    have hnd1 : p.1 ∉ rest.map Prod.fst := (List.nodup_cons.mp hnd).1
    have hnd2 : (rest.map Prod.fst).Nodup := (List.nodup_cons.mp hnd).2
    rcases List.mem_cons.mp hx with hx1 | hx2
    · rcases List.mem_cons.mp hy with hy1 | hy2
      · have : (k, x) = (k, y) := hx1.trans hy1.symm
        exact congrArg Prod.snd this
      · exfalso
        apply hnd1
        have hk : p.1 = k := by rw [← hx1]
        rw [hk]
        exact List.mem_map.mpr ⟨(k, y), hy2, rfl⟩
    · rcases List.mem_cons.mp hy with hy1 | hy2
      · exfalso
        apply hnd1
        have hk : p.1 = k := by rw [← hy1]
        rw [hk]
        exact List.mem_map.mpr ⟨(k, x), hx2, rfl⟩
      · exact ih hnd2 hx2 hy2

/-! ## Claims C2 and C3 -/

/-- C2, counterexample: a designated-field value exactly equal to the
threshold 10 is not counted in the bucket on the threshold's
lower-magnitude side (bucket 0, values `< 10`) but in the bucket above it
(bucket 1, values `< 100`), because the comparison `param_value < mag` is
strict. -/
theorem magnitude_tie_counterexample :
    paramValue [0, 0, 0, 0, 10] = 10
    ∧ threshold 0 = some 10
    ∧ assignBucket [("30", [0, 0, 0, 0, 10])] "30" = 1
    ∧ detailed [("A", [("30", [0, 0, 0, 0, 10])])] "30" 0 = []
    ∧ detailed [("A", [("30", [0, 0, 0, 0, 10])])] "30" 1 = [("A", some 10)] := by
  decide

/-- C2, amended: for every duration, a video with a usable summary for
that duration is placed into exactly the smallest-index magnitude bucket
whose threshold strictly exceeds the absolute value of the designated
field (thresholds 10, 100, 1000, +∞); a value exactly equal to a
threshold falls into the bucket on that threshold's higher-magnitude
side, since the comparison is a strict `<`.  A video present in the
aggregate with no usable outcome for the duration falls into the
distinguished `failed` bucket, and each bucket's recall equals its count
divided by the sum of every bucket's count, the `failed` one included. -/
theorem magnitude_bucket_placement (stats : CameraStats) (dur video : String)
    (camera : List (String × List ℚ)) (hmem : (video, camera) ∈ stats) :
    (∀ ps, camera.lookup dur = some ps →
      (video, some (paramValue ps)) ∈ detailed stats dur (bucketIdx (paramValue ps))
      ∧ belowThreshold (bucketIdx (paramValue ps)) (paramValue ps)
      ∧ (∀ j, j < bucketIdx (paramValue ps) → ¬ belowThreshold j (paramValue ps)))
    ∧ (camera.lookup dur = none → (video, none) ∈ detailed stats dur failedIdx)
    ∧ (∀ b, recallOf stats dur b
        = (bucketCount stats dur b : ℚ)
          / ((∑ i in Finset.range 5, bucketCount stats dur i : ℕ) : ℚ)) := by
  refine ⟨?_, ?_, ?_⟩
  · intro ps hps
    have hb : assignBucket camera dur = bucketIdx (paramValue ps) := by
      unfold assignBucket
      rw [hps]
    have h1 := mem_detailed stats dur video camera hmem
    rw [hb, hps] at h1
    exact ⟨by simpa using h1, (bucketIdx_least (paramValue ps)).1,
      (bucketIdx_least (paramValue ps)).2⟩
  · intro hnone
    have hb : assignBucket camera dur = failedIdx := by
      unfold assignBucket
      rw [hnone]
    have h1 := mem_detailed stats dur video camera hmem
    rw [hb, hnone] at h1
    simpa using h1
  · intro b
    unfold recallOf
    rw [sum_bucketCounts]

/-- C2, witness: the amended placement theorem at the concrete aggregate
`wStats`, duration 30, video `A`. -/
theorem magnitude_bucket_placement_witness :
    (∀ ps, ([("30", [0, 0, 0, 0, 5])] : List (String × List ℚ)).lookup "30" = some ps →
      ("A", some (paramValue ps)) ∈ detailed wStats "30" (bucketIdx (paramValue ps))
      ∧ belowThreshold (bucketIdx (paramValue ps)) (paramValue ps)
      ∧ (∀ j, j < bucketIdx (paramValue ps) → ¬ belowThreshold j (paramValue ps)))
    ∧ (([("30", [0, 0, 0, 0, 5])] : List (String × List ℚ)).lookup "30" = none →
        ("A", none) ∈ detailed wStats "30" failedIdx)
    ∧ (∀ b, recallOf wStats "30" b
        = (bucketCount wStats "30" b : ℚ)
          / ((∑ i in Finset.range 5, bucketCount wStats "30" i : ℕ) : ℚ)) :=
  magnitude_bucket_placement wStats "30" "A" [("30", [0, 0, 0, 0, 5])] (by decide)

/-- C3: for every duration with at least one considered video, the
per-bucket recalls of the magnitude table (the `failed` bucket included)
sum to exactly 1, and bucket membership is mutually exclusive: no video
appears in the detailed lists of two distinct buckets for the same
duration. -/
theorem recall_partition (stats : CameraStats) (dur : String)
    (hnd : (stats.map Prod.fst).Nodup) (htot : 0 < totalCount stats dur) :
    (∑ b in Finset.range 5, recallOf stats dur b) = 1
    ∧ ∀ video b c valb valc, b ≠ c →
        (video, valb) ∈ detailed stats dur b →
        (video, valc) ∈ detailed stats dur c → False := by
  refine ⟨sum_recalls stats dur htot, ?_⟩
  intro video b c valb valc hbc hb hc
  rcases of_mem_detailed stats dur b video valb hb with ⟨cam1, hm1, hb1, _⟩
  rcases of_mem_detailed stats dur c video valc hc with ⟨cam2, hm2, hb2, _⟩
  have hcc : cam1 = cam2 := assoc_eq_of_nodup_keys hnd hm1 hm2
  rw [hcc] at hb1
  exact hbc (hb1.symm.trans hb2)

/-- C3, witness: the recall-partition theorem at the concrete aggregate
`wStats` and duration 30. -/
theorem recall_partition_witness :
    (∑ b in Finset.range 5, recallOf wStats "30" b) = 1
    ∧ ∀ video b c valb valc, b ≠ c →
        (video, valb) ∈ detailed wStats "30" b →
        (video, valc) ∈ detailed wStats "30" c → False :=
  recall_partition wStats "30" (by decide) (by decide)

/-! ## Lemmas about the duration loop of `process_single_video` -/

theorem happ_assoc (a b c : VideoAcc) : (a.happ b).happ c = a.happ (b.happ c) := by
  cases a
  cases b
  cases c
  simp [VideoAcc.happ]

theorem happ_empty_left (a : VideoAcc) : emptyAcc.happ a = a := by
  cases a
  simp [VideoAcc.happ, emptyAcc]

theorem happ_empty_right (a : VideoAcc) : a.happ emptyAcc = a := by
  cases a
  simp [VideoAcc.happ, emptyAcc]

theorem stepVideo_happ (video : String) (acc : VideoAcc) (j : ℕ × RunEvent) :
    stepVideo video acc j = acc.happ (stepVideo video emptyAcc j) := by
  cases acc
  simp [stepVideo, VideoAcc.happ, emptyAcc]

theorem runVideoFrom_eq (video : String) (jobs : List (ℕ × RunEvent)) (acc : VideoAcc) :
    runVideoFrom video acc jobs = acc.happ (runVideo video jobs) := by
  induction jobs generalizing acc with
  | nil => exact (happ_empty_right acc).symm
  | cons j js ih =>
    rw [show runVideoFrom video acc (j :: js)
        = runVideoFrom video (stepVideo video acc j) js from rfl]
    rw [ih (stepVideo video acc j)]
    rw [show runVideo video (j :: js)
        = runVideoFrom video (stepVideo video emptyAcc j) js from rfl]
    rw [ih (stepVideo video emptyAcc j)]
    rw [stepVideo_happ video acc j, happ_assoc]

theorem runVideo_cons (video : String) (j : ℕ × RunEvent) (js : List (ℕ × RunEvent)) :
    runVideo video (j :: js) = (stepVideo video emptyAcc j).happ (runVideo video js) := by
  rw [show runVideo video (j :: js)
      = runVideoFrom video (stepVideo video emptyAcc j) js from rfl]
  exact runVideoFrom_eq video js (stepVideo video emptyAcc j)

theorem runVideo_append (video : String) (xs ys : List (ℕ × RunEvent)) :
    runVideo video (xs ++ ys) = (runVideo video xs).happ (runVideo video ys) := by
  rw [show runVideo video (xs ++ ys) = runVideoFrom video (runVideo video xs) ys from by
    unfold runVideo runVideoFrom
    rw [List.foldl_append]]
  exact runVideoFrom_eq video ys (runVideo video xs)

theorem processDuration_cams_nil (video : String) (dur : ℕ) (ev : RunEvent)
    (h : (processDuration video dur ev).1 = none) :
    (processDuration video dur ev).2.1 = [] := by
  cases ev with
  | ok cams => simp [processDuration] at h
  | missing f => rfl
  | timeout cps parse elapsed =>
    simp only [processDuration] at h ⊢
    cases hsel : (selectLargest cps).1 with
    | some p =>
      rw [hsel] at h
      simp at h
    | none => rfl
  | err m => rfl

theorem runVideo_outAll (video : String) (jobs : List (ℕ × RunEvent)) :
    (runVideo video jobs).outAll
      = (jobs.map (fun j => (processDuration video j.1 j.2).2.1)).flatten := by
  induction jobs with
  | nil => rfl
  | cons j js ih =>
    rw [runVideo_cons]
    simp [VideoAcc.happ, stepVideo, emptyAcc, ih]

theorem outAll_nil_of_all_failed (video : String) (jobs : List (ℕ × RunEvent))
    (h : ∀ j ∈ jobs, (processDuration video j.1 j.2).1 = none) :
    (runVideo video jobs).outAll = [] := by
  induction jobs with
  | nil => rfl
  | cons j js ih =>
    rw [runVideo_cons]
    have h1 : (processDuration video j.1 j.2).2.1 = [] :=
      processDuration_cams_nil video j.1 j.2 (h j (List.mem_cons_self j js))
    have h2 := ih (fun x hx => h x (List.mem_cons_of_mem j hx))
    simp [VideoAcc.happ, stepVideo, emptyAcc, h1, h2]

theorem processSingleVideo_none (video : String) (jobs : List (ℕ × RunEvent))
    (h : (runVideo video jobs).outAll = []) :
    (processSingleVideo video jobs).1 = none := by
  unfold processSingleVideo
  simp [h]

theorem processSingleVideo_some (video : String) (jobs : List (ℕ × RunEvent))
    (h : (runVideo video jobs).outAll ≠ []) :
    (processSingleVideo video jobs).1
      = some ((runVideo video jobs).entries
          ++ [("total", summaryOf ((runVideo video jobs).outAll))]) := by
  unfold processSingleVideo
  simp [h]

/-! ## Claim C4 -/

/-- C4, counterexample: video `B` of `sampleVideoJobs` has zero
Success/Recovered outcomes, so `process_single_video` writes no result
file for it and the aggregate contains only `A`; for duration 30 the
`failed` bucket is empty and the denominator is 1, whereas the claim
predicts `B` counted in every duration's `failed` bucket (failed count 1,
denominator 2). -/
theorem aggregation_skip_counterexample :
    (processSingleVideo "B" sampleJobsB).1 = none
    ∧ (buildStats sampleVideoJobs).map Prod.fst = ["A"]
    ∧ totalCount (buildStats sampleVideoJobs) "30" = 1
    ∧ ("B", none) ∉ detailed (buildStats sampleVideoJobs) "30" failedIdx
    ∧ ("B", none) ∉ detailed (buildStats sampleVideoJobs) "60" failedIdx := by
  have hfst : (buildStats sampleVideoJobs).map Prod.fst = ["A"] := by decide
  have habs : ∀ dur, ("B", (none : Option ℚ))
      ∉ detailed (buildStats sampleVideoJobs) dur failedIdx := by
    intro dur hmem
    rcases of_mem_detailed _ dur failedIdx "B" none hmem with ⟨camera, hcm, _, _⟩
    have : "B" ∈ (buildStats sampleVideoJobs).map Prod.fst :=
      List.mem_map.mpr ⟨("B", camera), hcm, rfl⟩
    rw [hfst] at this
    simp at this
  exact ⟨by decide, hfst, by decide, habs "30", habs "60"⟩

/-- C4, amended: a video with zero Success/Recovered outcomes across all
durations contributes no row to the per-video mapping and is excluded
from the magnitude statistics entirely — it is counted neither in any
duration's `failed` bucket nor in any denominator.  For a duration where
none of the aggregated videos has a usable outcome, the `failed` bucket's
recall is 1 and every magnitude bucket's recall is 0. -/
theorem aggregation_skip_amended :
    (∀ (videoJobs : List (String × List (ℕ × RunEvent))) (video : String)
        (jobs : List (ℕ × RunEvent)),
      (video, jobs) ∈ videoJobs →
      (videoJobs.map Prod.fst).Nodup →
      (∀ j ∈ jobs, (processDuration video j.1 j.2).1 = none) →
      (∀ m, (video, m) ∉ buildStats videoJobs)
      ∧ ∀ dur b val, (video, val) ∉ detailed (buildStats videoJobs) dur b)
    ∧ (∀ (stats : CameraStats) (dur : String), stats ≠ [] →
        (∀ p ∈ stats, p.2.lookup dur = none) →
        recallOf stats dur failedIdx = 1
        ∧ ∀ b, b < failedIdx → recallOf stats dur b = 0) := by
  constructor
  · intro videoJobs video jobs hmem hnd hfail
    have habs : ∀ m, (video, m) ∉ buildStats videoJobs := by
      intro m hm
      unfold buildStats at hm
      rcases List.mem_filterMap.mp hm with ⟨p, hp, hmap⟩
      rcases Option.map_eq_some'.mp hmap with ⟨x, hx, hxe⟩
      have hp1 : p.1 = video := congrArg Prod.fst hxe
      have hpm : (video, p.2) ∈ videoJobs := by
        rw [← hp1]
        exact hp
      have hjj : p.2 = jobs := assoc_eq_of_nodup_keys hnd hpm hmem
      rw [hp1, hjj,
        processSingleVideo_none video jobs (outAll_nil_of_all_failed video jobs hfail)] at hx
      cases hx
    refine ⟨habs, ?_⟩
    intro dur b val hdet
    rcases of_mem_detailed _ dur b video val hdet with ⟨camera, hcm, _, _⟩
    exact habs camera hcm
  · intro stats dur hne hall
    have hcount : ∀ x ∈ stats.map (fun p => assignBucket p.2 dur), x = failedIdx := by
      intro x hx
      rcases List.mem_map.mp hx with ⟨p, hp, rfl⟩
      unfold assignBucket
      rw [hall p hp]
    have hlen : stats.length ≠ 0 := fun h0 => hne (List.length_eq_zero.mp h0)
    constructor
    · unfold recallOf bucketCount totalCount
      rw [List.count_eq_length.mpr (fun b hb => (hcount b hb).symm)]
      rw [List.length_map]
      exact div_self (by exact_mod_cast hlen)
    · intro b hb
      unfold recallOf bucketCount
      rw [List.count_eq_zero.mpr ?_]
      · simp
      · intro hbin
        have := hcount b hbin
        rw [this] at hb
        exact lt_irrefl _ hb

/-- C4, witness: the amended theorem applied to the concrete inputs
`sampleVideoJobs` (video `B` fails everywhere) and `wStats` at duration
120 (no aggregated video has a usable 120 s outcome). -/
theorem aggregation_skip_amended_witness :
    ((∀ m, ("B", m) ∉ buildStats sampleVideoJobs)
      ∧ ∀ dur b val, ("B", val) ∉ detailed (buildStats sampleVideoJobs) dur b)
    ∧ (recallOf wStats "120" failedIdx = 1
      ∧ ∀ b, b < failedIdx → recallOf wStats "120" b = 0) :=
  ⟨aggregation_skip_amended.1 sampleVideoJobs "B" sampleJobsB
      (by simp [sampleVideoJobs]) (by decide) (by decide),
    aggregation_skip_amended.2 wStats "120" (by decide) (by decide)⟩

/-! ## Lemmas about the recovery checkpoint scan -/

theorem foldl_selStep_no_update (cps : List (String × ℕ)) :
    ∀ st : Option String × ℕ, (∀ q ∈ cps, q.2 ≤ st.2) → cps.foldl selStep st = st := by
  induction cps with
  | nil => intro st _; rfl
  | cons p rest ih =>
    intro st h
    have hp : ¬ (p.2 > st.2) := not_lt.mpr (h p (List.mem_cons_self p rest))
    show List.foldl selStep (selStep st p) rest = st
    rw [show selStep st p = st from by simp [selStep, hp]]
    exact ih st (fun q hq => h q (List.mem_cons_of_mem p hq))

theorem foldl_selStep_spec (cps : List (String × ℕ)) :
    ∀ st : Option String × ℕ,
      (cps.foldl selStep st = st ∨ ∃ p ∈ cps, cps.foldl selStep st = (some p.1, p.2))
      ∧ st.2 ≤ (cps.foldl selStep st).2
      ∧ ∀ q ∈ cps, q.2 ≤ (cps.foldl selStep st).2 := by
  induction cps with
  | nil =>
    intro st
    exact ⟨Or.inl rfl, le_refl _, by simp⟩
  | cons p rest ih =>
    intro st
    have hfold : (p :: rest).foldl selStep st = rest.foldl selStep (selStep st p) := rfl
    rcases ih (selStep st p) with ⟨hA, hB, hC⟩
    have hstep : st.2 ≤ (selStep st p).2 := by
      by_cases h : p.2 > st.2
      · rw [show (selStep st p).2 = p.2 from by simp [selStep, h]]
        exact le_of_lt h
      · rw [show (selStep st p).2 = st.2 from by simp [selStep, h]]
    have hp2 : p.2 ≤ (selStep st p).2 := by
      by_cases h : p.2 > st.2
      · rw [show (selStep st p).2 = p.2 from by simp [selStep, h]]
      · rw [show (selStep st p).2 = st.2 from by simp [selStep, h]]
        exact le_of_not_lt h
    refine ⟨?_, ?_, ?_⟩
    · rw [hfold]
      rcases hA with hA1 | ⟨q, hq, hq2⟩
      · rw [hA1]
        by_cases h : p.2 > st.2
        · exact Or.inr ⟨p, List.mem_cons_self p rest, by simp [selStep, h]⟩
        · exact Or.inl (by simp [selStep, h])
      · exact Or.inr ⟨q, List.mem_cons_of_mem p hq, hq2⟩
    · rw [hfold]
      exact le_trans hstep hB
    · intro q hq
      rw [hfold]
      rcases List.mem_cons.mp hq with rfl | hq2
      · exact le_trans hp2 hB
      · exact hC q hq2

theorem selectLargest_none_of_all_zero (cps : List (String × ℕ))
    (h : ∀ q ∈ cps, q.2 = 0) : selectLargest cps = (none, 0) :=
  foldl_selStep_no_update cps (none, 0) (fun q hq => le_of_eq (h q hq))

theorem selectLargest_max (cps : List (String × ℕ)) (hpos : ∃ p ∈ cps, 0 < p.2) :
    ∃ p ∈ cps, (selectLargest cps).1 = some p.1 ∧ (selectLargest cps).2 = p.2
      ∧ ∀ q ∈ cps, q.2 ≤ p.2 := by
  rcases foldl_selStep_spec cps (none, 0) with ⟨hA, _, hC⟩
  rcases hA with hA1 | ⟨p, hp, hp2⟩
  · exfalso
    rcases hpos with ⟨p0, hp0, hp0pos⟩
    have hle := hC p0 hp0
    rw [hA1] at hle
    exact absurd hp0pos (not_lt.mpr hle)
  · refine ⟨p, hp, ?_, ?_, ?_⟩
    · show (cps.foldl selStep (none, 0)).1 = some p.1
      rw [hp2]
    · show (cps.foldl selStep (none, 0)).2 = p.2
      rw [hp2]
    · intro q hq
      have hle := hC q hq
      rw [hp2] at hle
      exact hle

/-! ## Claim C5 -/

/-- C5, counterexample: a checkpoint subdirectory exists but has zero
registered frames; the scan keeps `largest_path = None` (the comparison
is a strict `num_images > 0`), the `assert` fails, and the job ends
Failed — the claim says the (unique, hence maximal) checkpoint is
promoted. -/
theorem recovery_zero_frames_counterexample :
    ([("0", (0 : ℕ))] : List (String × ℕ)) ≠ []
    ∧ (selectLargest [("0", 0)]).1 = none
    ∧ processDuration "v" 30 (.timeout [("0", 0)] (fun _ => [[1, 2, 3, 4, 5]]) 5)
        = (none, [], some "v 30s: Timeout after 5 seconds") := by
  refine ⟨by decide, by decide, by decide⟩

/-- C5, amended: when the deadline expires, recovery promotes a
checkpoint with the maximum registered-frame count provided that maximum
is positive (for counts `{3, 7, 5}` the one with 7 is selected); if no
checkpoint exists, or every checkpoint has zero registered frames, no
checkpoint is selected and the job's outcome remains TimedOut/Failed. -/
theorem recovery_select_amended (cps : List (String × ℕ))
    (parse : String → List (List ℚ)) (video : String) (dur elapsed : ℕ)
    (hpos : ∃ p ∈ cps, 0 < p.2) :
    (∃ p ∈ cps, (selectLargest cps).1 = some p.1 ∧ (∀ q ∈ cps, q.2 ≤ p.2)
      ∧ processDuration video dur (.timeout cps parse elapsed)
          = (some (summaryOf (parse p.1)), parse p.1, none))
    ∧ (∀ cps2 : List (String × ℕ), (∀ q ∈ cps2, q.2 = 0) →
        (selectLargest cps2).1 = none
        ∧ (processDuration video dur (.timeout cps2 parse elapsed)).1 = none
        ∧ (processDuration video dur (.timeout cps2 parse elapsed)).2.2
            = some (video ++ " " ++ toString dur ++ "s: Timeout after "
                ++ toString elapsed ++ " seconds"))
    ∧ selectLargest [("a", 3), ("b", 7), ("c", 5)] = (some "b", 7) := by
  refine ⟨?_, ?_, by decide⟩
  · rcases selectLargest_max cps hpos with ⟨p, hp, h1, _, h3⟩
    refine ⟨p, hp, h1, h3, ?_⟩
    simp only [processDuration]
    rw [h1]
  · intro cps2 h0
    have hsel : (selectLargest cps2).1 = none := by
      rw [selectLargest_none_of_all_zero cps2 h0]
    refine ⟨hsel, ?_, ?_⟩
    · simp only [processDuration]
      rw [hsel]
    · simp only [processDuration]
      rw [hsel]

/-- C5, witness: the amended recovery theorem at the concrete checkpoint
list `{a ↦ 3, b ↦ 7, c ↦ 5}`. -/
theorem recovery_select_amended_witness :
    (∃ p ∈ ([("a", 3), ("b", 7), ("c", 5)] : List (String × ℕ)),
      (selectLargest [("a", 3), ("b", 7), ("c", 5)]).1 = some p.1
      ∧ (∀ q ∈ ([("a", 3), ("b", 7), ("c", 5)] : List (String × ℕ)), q.2 ≤ p.2)
      ∧ processDuration "v" 30
            (.timeout [("a", 3), ("b", 7), ("c", 5)] (fun _ => [[9, 8]]) 9)
          = (some (summaryOf [[9, 8]]), [[9, 8]], none))
    ∧ (∀ cps2 : List (String × ℕ), (∀ q ∈ cps2, q.2 = 0) →
        (selectLargest cps2).1 = none
        ∧ (processDuration "v" 30 (.timeout cps2 (fun _ => [[9, 8]]) 9)).1 = none
        ∧ (processDuration "v" 30 (.timeout cps2 (fun _ => [[9, 8]]) 9)).2.2
            = some ("v" ++ " " ++ toString 30 ++ "s: Timeout after "
                ++ toString 9 ++ " seconds"))
    ∧ selectLargest [("a", 3), ("b", 7), ("c", 5)] = (some "b", 7) :=
  recovery_select_amended [("a", 3), ("b", 7), ("c", 5)] (fun _ => [[9, 8]]) "v" 30 9
    (by decide)

/-! ## Claim C6 -/

/-- C6, counterexample: a job whose deadline expires but whose scratch
area holds a checkpoint with 12 registered frames produces a per-duration
record *identical* to the one a Success with the same parsed cameras
produces — no salvage marker is stored anywhere, so the
Recovered-vs-Success distinction does not survive into the result
artifact or any downstream reporting. -/
theorem recovered_marker_counterexample :
    processDuration "v" 30
        (RunEvent.timeout [("0", 12)] (fun _ => [[1, 2, 3, 4, 5], [5, 4, 3, 2, 1]]) 7)
      = processDuration "v" 30 (RunEvent.ok [[1, 2, 3, 4, 5], [5, 4, 3, 2, 1]]) := by
  rfl

/-- C6, amended: a job whose deadline expires with a usable checkpoint
records exactly the parameter vectors parsed from the promoted
checkpoint's files, via a record equal in every component to the record a
Success over those vectors would produce; no marker distinguishes the
two, so downstream accounting treats them identically. -/
theorem recovered_equals_success (video : String) (dur elapsed : ℕ)
    (cps : List (String × ℕ)) (parse : String → List (List ℚ)) (p : String)
    (hsel : (selectLargest cps).1 = some p) :
    processDuration video dur (.timeout cps parse elapsed)
      = processDuration video dur (.ok (parse p))
    ∧ (processDuration video dur (.timeout cps parse elapsed)).1
        = some (summaryOf (parse p))
    ∧ (processDuration video dur (.timeout cps parse elapsed)).2.1 = parse p := by
  have h : processDuration video dur (.timeout cps parse elapsed)
      = (some (summaryOf (parse p)), parse p, none) := by
    simp only [processDuration]
    rw [hsel]
  refine ⟨?_, ?_, ?_⟩
  · rw [h]
    rfl
  · rw [h]
  · rw [h]

/-- C6, witness: the amended theorem at a concrete timeout with one
checkpoint holding 12 registered frames. -/
theorem recovered_equals_success_witness :
    processDuration "v" 30 (.timeout [("0", 12)] (fun _ => [[9, 8, 7]]) 7)
      = processDuration "v" 30 (.ok [[9, 8, 7]])
    ∧ (processDuration "v" 30 (.timeout [("0", 12)] (fun _ => [[9, 8, 7]]) 7)).1
        = some (summaryOf [[9, 8, 7]])
    ∧ (processDuration "v" 30 (.timeout [("0", 12)] (fun _ => [[9, 8, 7]]) 7)).2.1
        = [[9, 8, 7]] :=
  recovered_equals_success "v" 30 7 [("0", 12)] (fun _ => [[9, 8, 7]]) "0" (by decide)

/-! ## Claim C7 -/

/-- C7, counterexample: the log line written for a deadline expiry with
no usable checkpoint carries the reason `Timeout after <elapsed> seconds`,
not the reason `timeout, no partial model` stated by the claim. -/
theorem timeout_reason_counterexample :
    (processDuration "v" 30 (RunEvent.timeout [] (fun _ => []) 5)).2.2
      = some ("v 30s: " ++ "Timeout after 5 seconds")
    ∧ ("Timeout after 5 seconds" : String) ≠ "timeout, no partial model" := by
  refine ⟨by decide, by decide⟩

/-- C7, amended: for a job whose deadline expires with no usable recovery
checkpoint (none with a positive registered-frame count), the outcome is
Failed with reason `Timeout after <elapsed> seconds`, exactly one line is
appended to the error log, in the format `<video> <duration>s: <reason>`,
and sibling jobs are unaffected: removing the failing duration from the
run changes neither the recorded entries nor the accumulated camera rows,
and the log shrinks by exactly that one line. -/
theorem timeout_log_amended (video : String) (dur elapsed : ℕ)
    (cps : List (String × ℕ)) (parse : String → List (List ℚ))
    (hz : ∀ q ∈ cps, q.2 = 0) :
    processDuration video dur (.timeout cps parse elapsed)
      = (none, [],
          some (video ++ " " ++ toString dur ++ "s: Timeout after "
            ++ toString elapsed ++ " seconds"))
    ∧ (∃ reason, (processDuration video dur (.timeout cps parse elapsed)).2.2
        = some (video ++ " " ++ toString dur ++ "s: " ++ reason))
    ∧ ∀ (pre post : List (ℕ × RunEvent)),
        (runVideo video (pre ++ (dur, .timeout cps parse elapsed) :: post)).entries
            = (runVideo video (pre ++ post)).entries
        ∧ (runVideo video (pre ++ (dur, .timeout cps parse elapsed) :: post)).outAll
            = (runVideo video (pre ++ post)).outAll
        ∧ (runVideo video (pre ++ (dur, .timeout cps parse elapsed) :: post)).logs.length
            = (runVideo video (pre ++ post)).logs.length + 1 := by
  have hsel : (selectLargest cps).1 = none := by
    rw [selectLargest_none_of_all_zero cps hz]
  have hpd : processDuration video dur (.timeout cps parse elapsed)
      = (none, [],
          some (video ++ " " ++ toString dur ++ "s: Timeout after "
            ++ toString elapsed ++ " seconds")) := by
    simp only [processDuration]
    rw [hsel]
  refine ⟨hpd, ?_, ?_⟩
  · refine ⟨"Timeout after " ++ toString elapsed ++ " seconds", ?_⟩
    rw [hpd]
    have hsplit : ("s: Timeout after " : String) = "s: " ++ "Timeout after " := by decide
    simp only [String.append_assoc]
    rw [hsplit]
    simp only [String.append_assoc]
  · intro pre post
    rw [runVideo_append video pre ((dur, .timeout cps parse elapsed) :: post),
      runVideo_cons, runVideo_append video pre post]
    have hstep : stepVideo video emptyAcc (dur, .timeout cps parse elapsed)
        = ⟨[], [],
            [video ++ " " ++ toString dur ++ "s: Timeout after "
              ++ toString elapsed ++ " seconds"]⟩ := by
      simp [stepVideo, emptyAcc, hpd]
    rw [hstep]
    refine ⟨?_, ?_, ?_⟩
    · simp [VideoAcc.happ]
    · simp [VideoAcc.happ]
    · simp [VideoAcc.happ]
      omega

/-- C7, witness: the amended timeout-logging theorem at a concrete job
(video `v`, duration 30, elapsed 5, empty checkpoint directory). -/
theorem timeout_log_amended_witness :
    processDuration "v" 30 (.timeout [] (fun _ => []) 5)
      = (none, [],
          some ("v" ++ " " ++ toString 30 ++ "s: Timeout after "
            ++ toString 5 ++ " seconds"))
    ∧ (∃ reason, (processDuration "v" 30 (.timeout [] (fun _ => []) 5)).2.2
        = some ("v" ++ " " ++ toString 30 ++ "s: " ++ reason))
    ∧ ∀ (pre post : List (ℕ × RunEvent)),
        (runVideo "v" (pre ++ (30, .timeout [] (fun _ => []) 5) :: post)).entries
            = (runVideo "v" (pre ++ post)).entries
        ∧ (runVideo "v" (pre ++ (30, .timeout [] (fun _ => []) 5) :: post)).outAll
            = (runVideo "v" (pre ++ post)).outAll
        ∧ (runVideo "v" (pre ++ (30, .timeout [] (fun _ => []) 5) :: post)).logs.length
            = (runVideo "v" (pre ++ post)).logs.length + 1 :=
  timeout_log_amended "v" 30 5 [] (fun _ => []) (by decide)

/-! ## Claim C8 -/

/-- C8: for every video with at least one Success/Recovered duration, the
per-video `total` summary is computed over the union (concatenation) of
all per-camera parameter vectors of every duration that succeeded or was
recovered — the sample-weighted semantics — and not as an average of the
per-duration means: at a concrete input the two disagree. -/
theorem total_is_union_summary (video : String) (jobs : List (ℕ × RunEvent))
    (h : (runVideo video jobs).outAll ≠ []) :
    (processSingleVideo video jobs).1
      = some ((runVideo video jobs).entries
          ++ [("total",
              summaryOf ((jobs.map (fun j => (processDuration video j.1 j.2).2.1)).flatten))])
    ∧ avgOfDurationMeans [[[0], [2]], [[4]]]
        ≠ meanVec (([[[0], [2]], [[4]]] : List (List (List ℚ))).flatten) := by
  refine ⟨?_, ?_⟩
  · rw [processSingleVideo_some video jobs h, runVideo_outAll]
  · norm_num [avgOfDurationMeans, meanVec]

/-- C8, witness: the union-summary theorem at the concrete run
`sampleJobsA` (success at 30 s, failure at 60 s). -/
theorem total_is_union_summary_witness :
    (processSingleVideo "A" sampleJobsA).1
      = some ((runVideo "A" sampleJobsA).entries
          ++ [("total",
              summaryOf ((sampleJobsA.map
                (fun j => (processDuration "A" j.1 j.2).2.1)).flatten))])
    ∧ avgOfDurationMeans [[[0], [2]], [[4]]]
        ≠ meanVec (([[[0], [2]], [[4]]] : List (List (List ℚ))).flatten) :=
  total_is_union_summary "A" sampleJobsA (by decide)

/-! ## Claim C9 -/

/-- C9: the per-process seed is `seed + hash(video_name) % 10000`, where
`hash` is CPython's per-interpreter salted string hash; two runs whose
interpreters hash the same video name to different values (here 3 and 5)
derive different per-job seeds from the same global seed and video list,
so repeated runs are not reproducible.  This contradicts the code's own
comment (`Set independent deterministic random seed for each process`);
the theorem evaluates the code at the failing input. -/
theorem seed_depends_on_hash_salt :
    processSeed (fun _ => 3) 42 "v" = 45
    ∧ processSeed (fun _ => 5) 42 "v" = 47
    ∧ (∀ (seed : ℤ) (video : String),
        processSeed (fun _ => 3) seed video ≠ processSeed (fun _ => 5) seed video)
    ∧ videoSeed (fun _ => 3) 42 "v" 30 = 75 := by
  refine ⟨by decide, by decide, ?_, by decide⟩
  intro seed video
  simp only [processSeed]
  omega

/-! ## Claim C10 -/

/-- C10: the `time_limit` guard maps every `KeyboardInterrupt` raised in
the guarded block — whether delivered by the deadline timer or arriving
earlier from a genuine user interrupt — to `TimeoutException`, and its
`finally` block cancels the timer on every exit path: normal completion,
the converted timeout, and any other exception. -/
theorem time_limit_converts_interrupts :
    (∀ (seconds arrival : ℕ),
        timeLimit ℕ seconds (BlockOutcome.keyboardInterrupt arrival)
          = (GuardOutcome.timedOut, true))
    ∧ (∀ (seconds : ℕ) (body : BlockOutcome ℕ), (timeLimit ℕ seconds body).2 = true)
    ∧ (∀ (seconds v : ℕ),
        timeLimit ℕ seconds (BlockOutcome.normal v) = (GuardOutcome.normal v, true))
    ∧ (∀ (seconds : ℕ) (e : String),
        timeLimit ℕ seconds (BlockOutcome.raised e) = (GuardOutcome.raised e, true)) := by
  refine ⟨fun s a => rfl, fun s b => ?_, fun s v => rfl, fun s e => rfl⟩
  cases b <;> rfl

/-! ## Lemmas about the scheduler -/

theorem assignFrom_sublist (numGpus g : ℕ) :
    ∀ (videos : List String) (i : ℕ), List.Sublist (assignFrom numGpus i videos g) videos := by
  intro videos
  induction videos with
  | nil => intro i; exact List.Sublist.refl []
  | cons v rest ih =>
    intro i
    show List.Sublist
      ((if i % numGpus = g then [v] else []) ++ assignFrom numGpus (i + 1) rest g)
      (v :: rest)
    by_cases h : i % numGpus = g
    · rw [if_pos h]
      exact List.Sublist.cons₂ v (ih (i + 1))
    · rw [if_neg h]
      exact List.Sublist.cons v (ih (i + 1))

theorem gpuGroup_nodup (numGpus : ℕ) (videos : List String) (g : ℕ)
    (hnd : videos.Nodup) : (gpuGroup numGpus videos g).Nodup :=
  List.Nodup.sublist (assignFrom_sublist numGpus g videos 0) hnd

theorem assignFrom_count (numGpus : ℕ) (hn : 0 < numGpus) (v : String) :
    ∀ (videos : List String) (i : ℕ),
      ∑ g in Finset.range numGpus, (assignFrom numGpus i videos g).count v
        = videos.count v := by
  intro videos
  induction videos with
  | nil => intro i; simp [assignFrom]
  | cons x rest ih =>
    intro i
    have hmem : i % numGpus ∈ Finset.range numGpus :=
      Finset.mem_range.mpr (Nat.mod_lt i hn)
    have hsplit : ∀ g, (assignFrom numGpus i (x :: rest) g).count v
        = (if i % numGpus = g then [x].count v else 0)
          + (assignFrom numGpus (i + 1) rest g).count v := by
      intro g
      rw [show assignFrom numGpus i (x :: rest) g
          = (if i % numGpus = g then [x] else [])
            ++ assignFrom numGpus (i + 1) rest g from rfl]
      by_cases h : i % numGpus = g <;>
        simp [h, List.count_cons, List.count_nil, Nat.add_comm]
    rw [Finset.sum_congr rfl (fun g _ => hsplit g), Finset.sum_add_distrib, ih (i + 1),
      Finset.sum_ite_eq (Finset.range numGpus) (i % numGpus) (fun _ => [x].count v),
      if_pos hmem]
    by_cases hvx : v = x <;> simp [List.count_cons, hvx, Nat.add_comm]

theorem perm_shuffle (done pre post : List String) (v : String) :
    ((done ++ [v]) ++ (pre ++ post)).Perm (done ++ (pre ++ v :: post)) := by
  have h1 : (done ++ [v]) ++ (pre ++ post) = done ++ (v :: (pre ++ post)) := by simp
  rw [h1]
  exact List.Perm.append_left done List.perm_middle.symm

theorem slotInv_step {group : List String} {s t : SlotState}
    (hinv : SlotInv group s) (hstep : SlotStep s t) : SlotInv group t := by
  rcases hstep with ⟨q, done, started, pre, post, v⟩
  rcases hinv with ⟨h1, h2, h3⟩
  cases q with
  | nil =>
    refine ⟨?_, h2, ?_⟩
    · show (pre ++ post).length ≤ processesPerGpu
      have hl : (pre ++ v :: post).length ≤ processesPerGpu := h1
      simp only [List.length_append, List.length_cons] at hl ⊢
      omega
    · show ((done ++ [v]) ++ (pre ++ post)).Perm started
      exact (perm_shuffle done pre post v).trans h3
  | cons qh qt =>
    refine ⟨?_, ?_, ?_⟩
    · show ((pre ++ post) ++ [qh]).length ≤ processesPerGpu
      have hl : (pre ++ v :: post).length ≤ processesPerGpu := h1
      simp only [List.length_append, List.length_cons, List.length_nil] at hl ⊢
      omega
    · show (started ++ [qh]) ++ qt = group
      rw [List.append_assoc]
      exact h2
    · show ((done ++ [v]) ++ ((pre ++ post) ++ [qh])).Perm (started ++ [qh])
      have e1 : (done ++ [v]) ++ ((pre ++ post) ++ [qh])
          = ((done ++ [v]) ++ (pre ++ post)) ++ [qh] :=
        (List.append_assoc (done ++ [v]) (pre ++ post) [qh]).symm
      rw [e1]
      exact ((perm_shuffle done pre post v).append_right [qh]).trans
        (h3.append_right [qh])

theorem slotInv_reaches {group : List String} {s t : SlotState}
    (h0 : SlotInv group s) (h : Reaches s t) : SlotInv group t := by
  induction h with
  | refl => exact h0
  | tail _ hbc ih => exact slotInv_step ih hbc

theorem slotInv_init (group : List String) : SlotInv group (initSlot group) := by
  refine ⟨?_, ?_, ?_⟩
  · show (group.take processesPerGpu).length ≤ processesPerGpu
    rw [List.length_take]
    exact min_le_left _ _
  · show group.take processesPerGpu ++ group.drop processesPerGpu = group
    exact List.take_append_drop _ _
  · show (([] : List String) ++ group.take processesPerGpu).Perm (group.take processesPerGpu)
    rw [List.nil_append]

/-! ## Claim C1 -/

/-- C1: the round-robin deal places every video in exactly one GPU's
queue, and on every GPU, along every possible completion order: the
number of live processes never exceeds `processes_per_gpu = 4`; the
dispatch history followed by the remaining queue is exactly the deal in
its original order (so freed capacity is refilled from the queue head, in
queue order, and no video is dispatched twice); every dispatched video is
at any moment live or collected exactly once; and when the queue and the
live set are both empty, the collected videos are a permutation of the
deal — every job ran exactly once, none dropped. -/
theorem scheduler_dispatch_correct (numGpus : ℕ) (videos : List String)
    (hn : 0 < numGpus) (hnd : videos.Nodup) :
    (∀ v ∈ videos, ∑ g in Finset.range numGpus, (gpuGroup numGpus videos g).count v = 1)
    ∧ ∀ g s, Reaches (initSlot (gpuGroup numGpus videos g)) s →
        s.inflight.length ≤ processesPerGpu
        ∧ s.started ++ s.queue = gpuGroup numGpus videos g
        ∧ s.started.Nodup
        ∧ (s.done ++ s.inflight).Perm s.started
        ∧ (s.queue = [] → s.inflight = [] →
            s.done.Perm (gpuGroup numGpus videos g)) := by
  constructor
  · intro v hv
    calc ∑ g in Finset.range numGpus, (gpuGroup numGpus videos g).count v
        = videos.count v := assignFrom_count numGpus hn v videos 0
      _ = 1 := List.count_eq_one_of_mem hnd hv
  · intro g s hreach
    rcases slotInv_reaches (slotInv_init (gpuGroup numGpus videos g)) hreach
      with ⟨h1, h2, h3⟩
    have hgnd : (s.started ++ s.queue).Nodup := by
      rw [h2]
      exact gpuGroup_nodup numGpus videos g hnd
    have hstartnd : s.started.Nodup := List.Nodup.of_append_left hgnd
    refine ⟨h1, h2, hstartnd, h3, ?_⟩
    intro hq hi
    have h2q : s.started = gpuGroup numGpus videos g := by
      rw [← h2, hq, List.append_nil]
    have h3i := h3
    rw [hi, List.append_nil] at h3i
    rw [← h2q]
    exact h3i

/-- C1, witness: the scheduler theorem at two GPUs and the concrete video
list `["a", "b", "c"]`. -/
theorem scheduler_dispatch_correct_witness :
    (∀ v ∈ ["a", "b", "c"],
      ∑ g in Finset.range 2, (gpuGroup 2 ["a", "b", "c"] g).count v = 1)
    ∧ ∀ g s, Reaches (initSlot (gpuGroup 2 ["a", "b", "c"] g)) s →
        s.inflight.length ≤ processesPerGpu
        ∧ s.started ++ s.queue = gpuGroup 2 ["a", "b", "c"] g
        ∧ s.started.Nodup
        ∧ (s.done ++ s.inflight).Perm s.started
        ∧ (s.queue = [] → s.inflight = [] →
            s.done.Perm (gpuGroup 2 ["a", "b", "c"] g)) :=
  scheduler_dispatch_correct 2 ["a", "b", "c"] (by decide) (by decide)

end Gim
